import Mathlib

/-!
Shallow embedding of the `min-binary-heap` Rust crate (`src/lib.rs`).

The heap is a `Vec<T>`-backed binary min-heap, modelled as a `List α` for a
linearly ordered `α`.  Rust methods become Lean functions; a Rust method that
can panic (`parent_index`, and any `Vec` indexing / `unwrap`) is modelled with
an `Option` result where `none` is the panic.  `extract_min` returns
`Option (Option α × MinBinaryHeap α)`: the outer `Option` models panics, the
inner `Option α` is the Rust return value, paired with the mutated heap.
-/

set_option maxHeartbeats 1000000

namespace MinHeap

variable {α : Type} [LinearOrder α]

/-- `pub struct MinBinaryHeap<T> { tree: Vec<T> }` (lib.rs line 74). -/
structure MinBinaryHeap (α : Type) where
  tree : List α
deriving DecidableEq

/-- `MinBinaryHeap::new` (lib.rs line 240): an empty heap. -/
def new : MinBinaryHeap α := ⟨[]⟩

/-- `MinBinaryHeap::size` (lib.rs line 188): `self.tree.len()`. -/
def size (h : MinBinaryHeap α) : Nat := h.tree.length

/-- `MinBinaryHeap::parent_index` (lib.rs lines 137-145).  `none` models the
`panic!("MinBinaryHeap index out of bounds.")` branch; otherwise the result is
`(i-2)/2` for even `i` and `(i-1)/2` for odd `i`. -/
def parent_index (h : MinBinaryHeap α) (of_index : Nat) : Option Nat :=
  if of_index < 1 ∨ of_index ≥ size h then
    none
  else if of_index % 2 = 0 then
    some ((of_index - 2) / 2)
  else
    some ((of_index - 1) / 2)

/-- `MinBinaryHeap::child_index_min` (lib.rs lines 149-171): index of the
smaller child, or `none` when `2i+1` is out of range (no children).  The two
`Vec` indexings are guarded by the bounds tests, exactly as in the source. -/
def child_index_min (h : MinBinaryHeap α) (of_index : Nat) : Option Nat :=
  let left_child_index := 2 * of_index + 1
  let right_child_index := 2 * of_index + 2
  if hl : left_child_index < h.tree.length then
    if hr : right_child_index < h.tree.length then
      if h.tree.get ⟨left_child_index, hl⟩ < h.tree.get ⟨right_child_index, hr⟩ then
        some left_child_index
      else
        some right_child_index
    else
      some left_child_index
  else
    none

/-- If `parent_index` does not panic, the argument was in range `[1, size)`. -/
theorem parent_index_some_bounds {h : MinBinaryHeap α} {i p : Nat}
    (hp : parent_index h i = some p) : 1 ≤ i ∧ i < size h := by
  unfold parent_index at hp
  split at hp
  · exact absurd hp (by simp)
  · rename_i hcond
    push_neg at hcond
    omega

/-- A non-panicking `parent_index` result is strictly below its argument. -/
theorem parent_index_lt {h : MinBinaryHeap α} {i p : Nat}
    (hp : parent_index h i = some p) : p < i := by
  unfold parent_index at hp
  split at hp
  · exact absurd hp (by simp)
  · rename_i hcond
    push_neg at hcond
    split at hp <;> (injection hp with hp; omega)

/-- A `child_index_min` result is an in-range index strictly below its argument's
children bound: `of_index < c < length`. -/
theorem child_index_min_some_bounds {h : MinBinaryHeap α} {i c : Nat}
    (hc : child_index_min h i = some c) : i < c ∧ c < h.tree.length := by
  unfold child_index_min at hc
  by_cases hl : 2 * i + 1 < h.tree.length
  · by_cases hr : 2 * i + 2 < h.tree.length
    · simp only [hl, hr, dif_pos] at hc
      split at hc <;> (injection hc with hc; omega)
    · simp [hl, hr] at hc
      omega
  · simp [hl] at hc

/-- The sift-up `while` loop of `insert` (lib.rs lines 213-224), entered with
the index of the freshly pushed node.  Each step looks up the parent index,
compares, swaps (`Vec::swap` = two `List.set`), and either stops at the root
(`parent_index < 1`) or continues from the parent.  `none` models a panic.
The `fuel` argument only bounds the iteration count of the `while` loop: the
loop strictly decreases its index, so the `t.length` supplied by `insert` is
always enough (`siftUp_some` below), and the `fuel = 0` branch never fires. -/
def siftUp : Nat → List α → Nat → Option (List α)
  | 0, _, _ => none
  | fuel + 1, t, current =>
    match parent_index (MinBinaryHeap.mk t) current with
    | none => none
    | some p =>
      match t[current]?, t[p]? with
      | some c, some pv =>
        if c < pv then
          let t2 := (t.set current pv).set p c
          if p < 1 then some t2 else siftUp fuel t2 p
        else
          some t
      | _, _ => none

/-- `MinBinaryHeap::insert` (lib.rs lines 208-226): push, then sift up when
more than one element is stored.  `none` models a panic. -/
def insert (h : MinBinaryHeap α) (new_node : α) : Option (MinBinaryHeap α) :=
  let t := h.tree ++ [new_node]
  if 1 < t.length then
    (siftUp t.length t (t.length - 1)).map MinBinaryHeap.mk
  else
    some ⟨t⟩

/-- The sift-down `while` loop of `extract_min` (lib.rs lines 111-125), started
at the root: look up the smaller child (absence stops the loop), compare, swap
and continue from that child.  `none` models a panic.  As with `siftUp`, the
`fuel` argument only bounds the iteration count: the loop strictly increases
its index below `t.length`, so the `t.length` supplied by `extract_min` is
always enough (`siftDown_some` below), and the `fuel = 0` branch never fires. -/
def siftDown : Nat → List α → Nat → Option (List α)
  | 0, _, _ => none
  | fuel + 1, t, current =>
    match child_index_min (MinBinaryHeap.mk t) current with
    | none => some t
    | some c =>
      match t[current]?, t[c]? with
      | some cv, some ch =>
        if cv > ch then
          siftDown fuel ((t.set current ch).set c cv) c
        else
          some t
      | _, _ => none

/-- `MinBinaryHeap::extract_min` (lib.rs lines 97-129).  Empty heap: `none`
result.  One element: pop it.  Otherwise swap root with last, pop the old root
as the minimum, and sift the new root down when more than one element remains.
The outer `none` models a panic. -/
def extract_min (h : MinBinaryHeap α) : Option (Option α × MinBinaryHeap α) :=
  let t := h.tree
  if t.length < 1 then
    some (none, h)
  else if t.length < 2 then
    match t[0]? with
    | some x => some (some x, ⟨[]⟩)
    | none => none
  else
    match t[0]?, t[t.length - 1]? with
    | some root, some last =>
      let t1 := (t.set 0 last).set (t.length - 1) root
      let t2 := t1.dropLast
      if 1 < t2.length then
        (siftDown t2.length t2 0).map (fun t3 => (some root, ⟨t3⟩))
      else
        some (some root, ⟨t2⟩)
    | _, _ => none

/-- The parent index of `i`, as `parent_index` computes it on an in-range
argument: `(i-2)/2` when `i` is even, `(i-1)/2` when `i` is odd. -/
def parentOf (i : Nat) : Nat :=
  if i % 2 = 0 then (i - 2) / 2 else (i - 1) / 2

/-- The min-heap invariant on the backing list: each in-range index `i ≥ 1`
carries a value not below the one at `parentOf i`. -/
def IsHeap (t : List α) : Prop :=
  ∀ i x y, 1 ≤ i → t[parentOf i]? = some x → t[i]? = some y → x ≤ y

/-- States reachable from `new` by non-panicking `insert` / `extract_min`
calls (`size` is read-only and does not move the state). -/
inductive Reachable : MinBinaryHeap α → Prop where
  | init : Reachable new
  | step_insert {h h' : MinBinaryHeap α} {x : α} :
      Reachable h → insert h x = some h' → Reachable h'
  | step_extract {h h' : MinBinaryHeap α} {r : Option α} :
      Reachable h → extract_min h = some (r, h') → Reachable h'

/-- Insert a list of elements one at a time, left to right. -/
def insertList (h : MinBinaryHeap α) : List α → Option (MinBinaryHeap α)
  | [] => some h
  | x :: xs =>
    match insert h x with
    | some h2 => insertList h2 xs
    | none => none

/-- Call `extract_min` `n` times, collecting the returned elements in order;
stops early on an empty result or a panic. -/
def extractN (h : MinBinaryHeap α) : Nat → List α × MinBinaryHeap α
  | 0 => ([], h)
  | n + 1 =>
    match extract_min h with
    | some (some x, h2) =>
      let r := extractN h2 n
      (x :: r.1, r.2)
    | _ => ([], h)

/-! ### Arithmetic facts about the index maps -/

theorem parentOf_lt {i : Nat} (hi : 1 ≤ i) : parentOf i < i := by
  unfold parentOf
  split <;> omega

theorem parentOf_eq_iff {i j : Nat} (hi : 1 ≤ i) :
    parentOf i = j ↔ i = 2 * j + 1 ∨ i = 2 * j + 2 := by
  unfold parentOf
  split <;> omega

theorem parentOf_left (j : Nat) : parentOf (2 * j + 1) = j := by
  unfold parentOf
  split <;> omega

theorem parentOf_right (j : Nat) : parentOf (2 * j + 2) = j := by
  unfold parentOf
  split <;> omega

/-- On an in-range index, `parent_index` does not panic and computes
`parentOf`. -/
theorem parent_index_eq {h : MinBinaryHeap α} {i : Nat} (h1 : 1 ≤ i)
    (h2 : i < size h) : parent_index h i = some (parentOf i) := by
  unfold parent_index parentOf
  have hc : ¬(i < 1 ∨ i ≥ size h) := by omega
  simp only [hc, if_false]
  split <;> rename_i he <;> simp [he]

/-- `parent_index` panics exactly on out-of-range arguments. -/
theorem parent_index_none_iff {h : MinBinaryHeap α} {i : Nat} :
    parent_index h i = none ↔ i < 1 ∨ size h ≤ i := by
  unfold parent_index
  constructor
  · intro hp
    split at hp
    · omega
    · split at hp <;> simp at hp
  · intro hc
    split
    · rfl
    · rename_i hcond
      omega

/-- `child_index_min` returns `none` exactly when the left child index is out
of range. -/
theorem child_index_min_none_iff {h : MinBinaryHeap α} {i : Nat} :
    child_index_min h i = none ↔ h.tree.length ≤ 2 * i + 1 := by
  unfold child_index_min
  by_cases hl : 2 * i + 1 < h.tree.length
  · simp only [hl, dif_pos]
    by_cases hr : 2 * i + 2 < h.tree.length
    · simp only [hr, dif_pos]
      constructor
      · intro hc
        split at hc <;> simp at hc
      · omega
    · simp only [hr, dif_neg, not_false_iff]
      constructor
      · intro hc
        simp at hc
      · omega
  · simp [hl]
    omega

/-- A `child_index_min` result is the left or the right child index. -/
theorem child_index_min_is_child {h : MinBinaryHeap α} {i c : Nat}
    (hc : child_index_min h i = some c) : c = 2 * i + 1 ∨ c = 2 * i + 2 := by
  unfold child_index_min at hc
  by_cases hl : 2 * i + 1 < h.tree.length
  · by_cases hr : 2 * i + 2 < h.tree.length
    · simp only [hl, hr, dif_pos] at hc
      split at hc <;> (injection hc with hc; omega)
    · simp [hl, hr] at hc
      omega
  · simp [hl] at hc

/-- The value at a `child_index_min` result is minimal among the in-range
children. -/
theorem child_index_min_le {h : MinBinaryHeap α} {i c : Nat}
    (hc : child_index_min h i = some c) {k : Nat}
    (hk : k = 2 * i + 1 ∨ k = 2 * i + 2) (hklen : k < h.tree.length) {y z : α}
    (hky : h.tree[k]? = some y) (hcz : h.tree[c]? = some z) : z ≤ y := by
  have hcb := child_index_min_some_bounds hc
  unfold child_index_min at hc
  by_cases hl : 2 * i + 1 < h.tree.length
  · by_cases hr : 2 * i + 2 < h.tree.length
    · simp only [hl, hr, dif_pos] at hc
      rw [List.getElem?_eq_getElem hklen] at hky
      rw [List.getElem?_eq_getElem hcb.2] at hcz
      injection hky with hky
      injection hcz with hcz
      subst hky hcz
      split at hc <;> rename_i hcmp <;> injection hc with hc <;> subst hc <;>
          simp only [List.get_eq_getElem] at hcmp <;> rcases hk with rfl | rfl
      · exact le_refl _
      · exact le_of_lt hcmp
      · exact le_of_not_lt hcmp
      · exact le_refl _
    · have hk1 : k = 2 * i + 1 := by omega
      subst hk1
      simp only [hl, hr, dif_pos, dif_neg, not_false_iff] at hc
      injection hc with hc
      subst hc
      rw [hky] at hcz
      injection hcz with hcz
      subst hcz
      exact le_refl y
  · simp [hl] at hc

/-! ### Permutation facts about `List.set`-encoded swaps -/

theorem perm_cons_set {l : List α} {k : Nat} {b : α} (a : α)
    (hb : l[k]? = some b) : List.Perm (b :: l.set k a) (a :: l) := by
  induction l generalizing k with
  | nil => simp at hb
  | cons y ys ih =>
    cases k with
    | zero =>
      simp only [List.getElem?_cons_zero] at hb
      injection hb with hb
      subst hb
      simpa [List.set] using List.Perm.swap a y ys
    | succ m =>
      simp only [List.getElem?_cons_succ] at hb
      show List.Perm (b :: y :: ys.set m a) (a :: y :: ys)
      exact ((List.Perm.swap y b _).trans ((ih hb).cons y)).trans
        (List.Perm.swap a y ys)

theorem perm_set_set_lt {l : List α} {i j : Nat} {a b : α} (hij : i < j)
    (ha : l[i]? = some a) (hb : l[j]? = some b) :
    List.Perm ((l.set i b).set j a) l := by
  induction l generalizing i j with
  | nil => simp at ha
  | cons y ys ih =>
    obtain ⟨m, rfl⟩ : ∃ m, j = m + 1 := ⟨j - 1, by omega⟩
    cases i with
    | zero =>
      simp only [List.getElem?_cons_zero] at ha
      injection ha with ha
      subst ha
      simp only [List.getElem?_cons_succ] at hb
      simpa [List.set] using perm_cons_set y hb
    | succ n =>
      simp only [List.getElem?_cons_succ] at ha hb
      simpa [List.set] using (ih (by omega) ha hb).cons y

/-- A `Vec::swap` (two `List.set`s with crossed values) is a permutation. -/
theorem perm_swap_set {l : List α} {i j : Nat} {a b : α} (hij : i ≠ j)
    (ha : l[i]? = some a) (hb : l[j]? = some b) :
    List.Perm ((l.set i b).set j a) l := by
  rcases Nat.lt_or_ge i j with hlt | hge
  · exact perm_set_set_lt hlt ha hb
  · rw [List.set_comm _ _ _ hij]
    exact perm_set_set_lt (by omega) hb ha

/-! ### `getElem?` views of a swap -/

theorem getElem?_ss_snd {l : List α} {i j : Nat} {a b : α} (hj : j < l.length) :
    ((l.set i a).set j b)[j]? = some b :=
  List.getElem?_set_self (by simpa using hj)

theorem getElem?_ss_fst {l : List α} {i j : Nat} {a b : α} (hij : i ≠ j)
    (hi : i < l.length) : ((l.set i a).set j b)[i]? = some a := by
  rw [List.getElem?_set_ne (Ne.symm hij), List.getElem?_set_self hi]

theorem getElem?_ss_other {l : List α} {i j k : Nat} {a b : α} (hki : k ≠ i)
    (hkj : k ≠ j) : ((l.set i a).set j b)[k]? = l[k]? := by
  rw [List.getElem?_set_ne (Ne.symm hkj), List.getElem?_set_ne (Ne.symm hki)]

/-! ### The sift-up loop: totality, permutation, invariant restoration -/

/-- With enough fuel and an in-range, non-root start index, the sift-up loop
terminates without panicking and permutes the list. -/
theorem siftUp_some {fuel : Nat} : ∀ {t : List α} {current : Nat},
    current < fuel → 1 ≤ current → current < t.length →
    ∃ t', siftUp fuel t current = some t' ∧ List.Perm t' t := by
  induction fuel with
  | zero =>
    intro t current hf _ _
    omega
  | succ n ih =>
    intro t current hf h1 hlen
    have hpi : parent_index (MinBinaryHeap.mk t) current = some (parentOf current) :=
      parent_index_eq h1 hlen
    have hpl : parentOf current < current := parentOf_lt h1
    have hc : t[current]? = some (t.get ⟨current, hlen⟩) := by
      simp [List.getElem?_eq_getElem hlen]
    have hplen : parentOf current < t.length := by omega
    have hp : t[parentOf current]? = some (t.get ⟨parentOf current, hplen⟩) := by
      simp [List.getElem?_eq_getElem hplen]
    simp only [siftUp, hpi, hc, hp]
    by_cases hlt : t.get ⟨current, hlen⟩ < t.get ⟨parentOf current, hplen⟩
    · simp only [hlt, if_true]
      have hperm2 : List.Perm
          ((t.set current (t.get ⟨parentOf current, hplen⟩)).set (parentOf current)
            (t.get ⟨current, hlen⟩)) t :=
        perm_swap_set (by omega) hc hp
      by_cases hp1 : parentOf current < 1
      · simp only [hp1, if_true]
        exact ⟨_, rfl, hperm2⟩
      · simp only [hp1, if_false]
        have hlen2 : parentOf current <
            ((t.set current (t.get ⟨parentOf current, hplen⟩)).set (parentOf current)
              (t.get ⟨current, hlen⟩)).length := by
          simp
          omega
        obtain ⟨t', ht', hperm⟩ := ih (by omega) (by omega) hlen2
        exact ⟨t', ht', hperm.trans hperm2⟩
    · simp only [hlt, if_false]
      exact ⟨t, rfl, List.Perm.refl t⟩

/-- Intermediate state of the sift-up loop: the heap order may fail only on
the edge from `j` up to its parent, and (to survive a swap) the value at `j`'s
parent is already at most each value below a child edge out of `j`. -/
def AlmostHeapUp (t : List α) (j : Nat) : Prop :=
  (∀ i x y, 1 ≤ i → i ≠ j → t[parentOf i]? = some x → t[i]? = some y → x ≤ y) ∧
  (∀ cc x y, 1 ≤ j → parentOf cc = j → t[parentOf j]? = some x →
    t[cc]? = some y → x ≤ y)

/-- A list of length at most 1 vacuously satisfies the heap invariant. -/
theorem isHeap_of_short {t : List α} (h : t.length ≤ 1) : IsHeap t := by
  intro i x y h1 _ hiy
  have hi := (List.getElem?_eq_some_iff.mp hiy).1
  omega

/-- The sift-up loop restores the full heap invariant from an `AlmostHeapUp`
state. -/
theorem siftUp_heap : ∀ (fuel : Nat) {t : List α} {j : Nat} {t' : List α},
    1 ≤ j → j < t.length → AlmostHeapUp t j → siftUp fuel t j = some t' →
    IsHeap t' := by
  intro fuel
  induction fuel with
  | zero =>
    intro t j t' _ _ _ hrun
    simp [siftUp] at hrun
  | succ n ih =>
    intro t j t' h1 hlen hA hrun
    obtain ⟨p, hpdef⟩ : ∃ p, parentOf j = p := ⟨_, rfl⟩
    have hpi : parent_index (MinBinaryHeap.mk t) j = some p := by
      rw [parent_index_eq h1 hlen, hpdef]
    have hpl : p < j := hpdef ▸ parentOf_lt h1
    have hplen : p < t.length := by omega
    obtain ⟨cv, hc⟩ : ∃ cv, t[j]? = some cv := ⟨_, List.getElem?_eq_getElem hlen⟩
    obtain ⟨pv, hp⟩ : ∃ pv, t[p]? = some pv := ⟨_, List.getElem?_eq_getElem hplen⟩
    have hpp : t[parentOf j]? = some pv := by
      rw [hpdef]
      exact hp
    simp only [siftUp, hpi, hc, hp] at hrun
    by_cases hlt : cv < pv
    · rw [if_pos hlt] at hrun
      have ht2j : ((t.set j pv).set p cv)[j]? = some pv :=
        getElem?_ss_fst (by omega) hlen
      have ht2p : ((t.set j pv).set p cv)[p]? = some cv := getElem?_ss_snd hplen
      have ht2other : ∀ k, k ≠ j → k ≠ p → ((t.set j pv).set p cv)[k]? = t[k]? :=
        fun k hkj hkp => getElem?_ss_other hkj hkp
      by_cases hp1 : p < 1
      · -- swapped with the root: the result is a full heap
        rw [if_pos hp1] at hrun
        injection hrun with hrun
        subst hrun
        intro i x y hi1 hpx hiy
        by_cases hij : i = j
        · subst hij
          rw [hpdef, ht2p] at hpx
          rw [ht2j] at hiy
          injection hpx with hpx
          injection hiy with hiy
          subst hpx
          subst hiy
          exact le_of_lt hlt
        · by_cases hpij : parentOf i = j
          · -- `i` is a child of `j`: grandparent condition of `AlmostHeapUp`
            have hipne : i ≠ p := by
              have := parentOf_lt hi1
              omega
            rw [hpij, ht2j] at hpx
            rw [ht2other i hij hipne] at hiy
            injection hpx with hpx
            subst hpx
            exact hA.2 i pv y h1 hpij hpp hiy
          · by_cases hpip : parentOf i = p
            · -- `i` is the sibling of `j` below the root
              have hipne : i ≠ p := by omega
              rw [hpip, ht2p] at hpx
              rw [ht2other i hij hipne] at hiy
              injection hpx with hpx
              subst hpx
              have hpvy : pv ≤ y := by
                refine hA.1 i pv y hi1 hij ?_ hiy
                rw [hpip]
                exact hp
              exact le_trans (le_of_lt hlt) hpvy
            · have hipne : i ≠ p := by omega
              rw [ht2other (parentOf i) hpij hpip] at hpx
              rw [ht2other i hij hipne] at hiy
              exact hA.1 i x y hi1 hij hpx hiy
      · -- continue sifting from the parent position
        rw [if_neg hp1] at hrun
        have hp1' : 1 ≤ p := by omega
        have hlen2 : p < ((t.set j pv).set p cv).length := by
          simp
          omega
        refine ih hp1' hlen2 ⟨?_, ?_⟩ hrun
        · -- heap order everywhere except at the new exception `p`
          intro i x y hi1 hip hpx hiy
          by_cases hij : i = j
          · subst hij
            rw [hpdef, ht2p] at hpx
            rw [ht2j] at hiy
            injection hpx with hpx
            injection hiy with hiy
            subst hpx
            subst hiy
            exact le_of_lt hlt
          · by_cases hpij : parentOf i = j
            · have hipne : i ≠ p := by
                have := parentOf_lt hi1
                omega
              rw [hpij, ht2j] at hpx
              rw [ht2other i hij hipne] at hiy
              injection hpx with hpx
              subst hpx
              exact hA.2 i pv y h1 hpij hpp hiy
            · by_cases hpip : parentOf i = p
              · rw [hpip, ht2p] at hpx
                rw [ht2other i hij hip] at hiy
                injection hpx with hpx
                subst hpx
                have hpvy : pv ≤ y := by
                  refine hA.1 i pv y hi1 hij ?_ hiy
                  rw [hpip]
                  exact hp
                exact le_trans (le_of_lt hlt) hpvy
              · rw [ht2other (parentOf i) hpij hpip] at hpx
                rw [ht2other i hij hip] at hiy
                exact hA.1 i x y hi1 hij hpx hiy
        · -- grandparent condition at the new exception `p`
          intro cc x y _ hpcc hppx hccy
          obtain ⟨pp, hppdef⟩ : ∃ pp, parentOf p = pp := ⟨_, rfl⟩
          have hppl : pp < p := hppdef ▸ parentOf_lt hp1'
          have hcc1 : 1 ≤ cc := by
            rcases Nat.eq_zero_or_pos cc with rfl | h
            · exfalso
              have h0 : parentOf 0 = 0 := by simp [parentOf]
              omega
            · exact h
          have hccp : p < cc := by
            have := parentOf_lt hcc1
            omega
          rw [hppdef, ht2other pp (by omega) (by omega)] at hppx
          have hxpv : x ≤ pv := by
            refine hA.1 p x pv hp1' (by omega) ?_ hp
            rw [hppdef]
            exact hppx
          by_cases hccj : cc = j
          · subst hccj
            rw [ht2j] at hccy
            injection hccy with hccy
            subst hccy
            exact hxpv
          · rw [ht2other cc hccj (by omega)] at hccy
            have hpvy : pv ≤ y := by
              refine hA.1 cc pv y hcc1 hccj ?_ hccy
              rw [hpcc]
              exact hp
            exact le_trans hxpv hpvy
    · -- loop condition fails at once: the list already is a heap
      rw [if_neg hlt] at hrun
      injection hrun with hrun
      subst hrun
      intro i x y hi1 hpx hiy
      by_cases hij : i = j
      · subst hij
        rw [hpdef, hp] at hpx
        rw [hc] at hiy
        injection hpx with hpx
        injection hiy with hiy
        subst hpx
        subst hiy
        exact le_of_not_lt hlt
      · exact hA.1 i x y hi1 hij hpx hiy

/-! ### `insert`: totality, permutation, invariant preservation -/

/-- Appending a new leaf to a heap is an `AlmostHeapUp` state at the leaf. -/
theorem almostHeapUp_append {t : List α} (x : α) (hheap : IsHeap t) :
    AlmostHeapUp (t ++ [x]) t.length := by
  constructor
  · intro i xx y hi1 hine hpx hiy
    have hilen : i < (t ++ [x]).length := (List.getElem?_eq_some_iff.mp hiy).1
    have hilen' : i < t.length := by
      simp only [List.length_append, List.length_cons, List.length_nil] at hilen
      omega
    have hplen : parentOf i < t.length := lt_trans (parentOf_lt hi1) hilen'
    rw [List.getElem?_append_left hilen'] at hiy
    rw [List.getElem?_append_left hplen] at hpx
    exact hheap i xx y hi1 hpx hiy
  · intro cc xx y h1 hpcc hpx hccy
    have hcclen : cc < (t ++ [x]).length := (List.getElem?_eq_some_iff.mp hccy).1
    have hcc1 : 1 ≤ cc := by
      rcases Nat.eq_zero_or_pos cc with rfl | h
      · exfalso
        have h0 : parentOf 0 = 0 := by simp [parentOf]
        omega
      · exact h
    have := (parentOf_eq_iff hcc1).mp hpcc
    simp only [List.length_append, List.length_cons, List.length_nil] at hcclen
    omega

/-- `insert` never panics, adds exactly the new element, grows the size by
one, and preserves the heap invariant. -/
theorem insert_spec (h : MinBinaryHeap α) (x : α) :
    ∃ h', insert h x = some h' ∧ List.Perm h'.tree (x :: h.tree) ∧
      (IsHeap h.tree → IsHeap h'.tree) := by
  by_cases hlen : 1 < (h.tree ++ [x]).length
  · have hlen' : 1 ≤ h.tree.length := by
      simp only [List.length_append, List.length_cons, List.length_nil] at hlen
      omega
    have hcur : (h.tree ++ [x]).length - 1 = h.tree.length := by
      simp
    obtain ⟨t', hrun, hperm⟩ :=
      @siftUp_some α _ ((h.tree ++ [x]).length) (h.tree ++ [x])
        ((h.tree ++ [x]).length - 1) (by omega)
        (by omega) (by omega)
    refine ⟨⟨t'⟩, ?_, ?_, ?_⟩
    · have h0 : 0 < h.tree.length := hlen'
      simp only [List.length_append, List.length_cons, List.length_nil,
        Nat.add_sub_cancel] at hrun
      simp [insert, hrun, h0]
    · exact hperm.trans (List.perm_append_singleton x h.tree)
    · intro hheap
      rw [hcur] at hrun
      exact siftUp_heap (h.tree ++ [x]).length hlen'
        (by simp only [List.length_append, List.length_cons, List.length_nil]; omega)
        (almostHeapUp_append x hheap) hrun
  · refine ⟨⟨h.tree ++ [x]⟩, ?_, ?_, ?_⟩
    · simp only [insert, hlen, if_neg, not_false_iff]
    · exact List.perm_append_singleton x h.tree
    · intro _
      apply isHeap_of_short
      simp only [List.length_append, List.length_cons, List.length_nil]
      simp only [List.length_append, List.length_cons, List.length_nil] at hlen
      omega

/-- In a heap the root value is a lower bound for every stored value. -/
theorem isHeap_root_min {t : List α} (hheap : IsHeap t) :
    ∀ (i : Nat) (y : α), t[i]? = some y → ∀ x, t[0]? = some x → x ≤ y := by
  have H : ∀ (n i : Nat), i < n → ∀ y : α, t[i]? = some y → ∀ x, t[0]? = some x → x ≤ y := by
    intro n
    induction n with
    | zero =>
      intro i hi
      omega
    | succ n ih =>
      intro i hi y hiy x h0
      rcases Nat.eq_zero_or_pos i with rfl | hi1
      · rw [h0] at hiy
        injection hiy with hiy
        subst hiy
        exact le_refl x
      · have hplt := parentOf_lt hi1
        have hilen : i < t.length := (List.getElem?_eq_some_iff.mp hiy).1
        have hplen : parentOf i < t.length := lt_trans hplt hilen
        obtain ⟨z, hz⟩ : ∃ z, t[parentOf i]? = some z :=
          ⟨_, List.getElem?_eq_getElem hplen⟩
        exact le_trans (ih (parentOf i) (by omega) z hz x h0)
          (hheap i z y hi1 hz hiy)
  intro i
  exact H (i + 1) i (by omega)

/-! ### The sift-down loop: totality, permutation, invariant restoration -/

/-- With enough fuel and an in-range start index, the sift-down loop
terminates without panicking and permutes the list. -/
theorem siftDown_some {fuel : Nat} : ∀ {t : List α} {current : Nat},
    current < t.length → t.length ≤ fuel + current →
    ∃ t', siftDown fuel t current = some t' ∧ List.Perm t' t := by
  induction fuel with
  | zero =>
    intro t current hcur hfuel
    omega
  | succ n ih =>
    intro t current hcur hfuel
    rcases hcm : child_index_min (MinBinaryHeap.mk t) current with _ | c
    · exact ⟨t, by simp only [siftDown, hcm], List.Perm.refl t⟩
    · have hb : current < c ∧ c < t.length := child_index_min_some_bounds hcm
      obtain ⟨cv, hcv⟩ : ∃ cv, t[current]? = some cv :=
        ⟨_, List.getElem?_eq_getElem hcur⟩
      obtain ⟨ch, hch⟩ : ∃ ch, t[c]? = some ch :=
        ⟨_, List.getElem?_eq_getElem hb.2⟩
      by_cases hlt : ch < cv
      · have hperm2 : List.Perm ((t.set current ch).set c cv) t :=
          perm_swap_set (by omega) hcv hch
        have hlen2 : c < ((t.set current ch).set c cv).length := by
          simp
          omega
        have hfuel2 : ((t.set current ch).set c cv).length ≤ n + c := by
          simp
          omega
        obtain ⟨t', ht', hp⟩ := ih hlen2 hfuel2
        refine ⟨t', ?_, hp.trans hperm2⟩
        simp only [siftDown, hcm, hcv, hch]
        rw [if_pos (show cv > ch from hlt)]
        exact ht'
      · refine ⟨t, ?_, List.Perm.refl t⟩
        simp only [siftDown, hcm, hcv, hch]
        rw [if_neg (show ¬cv > ch from hlt)]

/-- Intermediate state of the sift-down loop: the heap order may fail only on
the edges from `j` down to its children, and the value at `j`'s parent is
already at most each value below a child edge out of `j`. -/
def AlmostHeapDown (t : List α) (j : Nat) : Prop :=
  (∀ i x y, 1 ≤ i → parentOf i ≠ j → t[parentOf i]? = some x →
    t[i]? = some y → x ≤ y) ∧
  (∀ cc x y, 1 ≤ j → parentOf cc = j → t[parentOf j]? = some x →
    t[cc]? = some y → x ≤ y)

/-- The sift-down loop restores the full heap invariant from an
`AlmostHeapDown` state. -/
theorem siftDown_heap : ∀ (fuel : Nat) {t : List α} {j : Nat} {t' : List α},
    AlmostHeapDown t j → siftDown fuel t j = some t' → IsHeap t' := by
  intro fuel
  induction fuel with
  | zero =>
    intro t j t' _ hrun
    simp [siftDown] at hrun
  | succ n ih =>
    intro t j t' hA hrun
    rcases hcm : child_index_min (MinBinaryHeap.mk t) j with _ | c
    · -- no children below `j`: the list already is a heap
      simp only [siftDown, hcm] at hrun
      injection hrun with hrun
      subst hrun
      intro i x y hi1 hpx hiy
      by_cases hpij : parentOf i = j
      · exfalso
        have hilen : i < t.length := (List.getElem?_eq_some_iff.mp hiy).1
        have hnone : t.length ≤ 2 * j + 1 := child_index_min_none_iff.mp hcm
        have := (parentOf_eq_iff hi1).mp hpij
        omega
      · exact hA.1 i x y hi1 hpij hpx hiy
    · have hb : j < c ∧ c < t.length := child_index_min_some_bounds hcm
      have hjlen : j < t.length := lt_trans hb.1 hb.2
      obtain ⟨cv, hcv⟩ : ∃ cv, t[j]? = some cv :=
        ⟨_, List.getElem?_eq_getElem hjlen⟩
      obtain ⟨ch, hch⟩ : ∃ ch, t[c]? = some ch :=
        ⟨_, List.getElem?_eq_getElem hb.2⟩
      have hcchild : c = 2 * j + 1 ∨ c = 2 * j + 2 := child_index_min_is_child hcm
      have hc1 : 1 ≤ c := by omega
      have hpcj : parentOf c = j := by
        rcases hcchild with rfl | rfl
        · exact parentOf_left j
        · exact parentOf_right j
      simp only [siftDown, hcm, hcv, hch] at hrun
      by_cases hlt : ch < cv
      · rw [if_pos (show cv > ch from hlt)] at hrun
        have ht2j : ((t.set j ch).set c cv)[j]? = some ch :=
          getElem?_ss_fst (by omega) hjlen
        have ht2c : ((t.set j ch).set c cv)[c]? = some cv := getElem?_ss_snd hb.2
        have ht2other : ∀ k, k ≠ j → k ≠ c →
            ((t.set j ch).set c cv)[k]? = t[k]? :=
          fun k hkj hkc => getElem?_ss_other hkj hkc
        refine ih ⟨?_, ?_⟩ hrun
        · -- heap order away from the new exception `c`
          intro i x y hi1 hpic hpx hiy
          by_cases hic : i = c
          · subst hic
            rw [hpcj, ht2j] at hpx
            rw [ht2c] at hiy
            injection hpx with hpx
            injection hiy with hiy
            subst hpx
            subst hiy
            exact le_of_lt hlt
          · by_cases hij : i = j
            · subst hij
              have hpplt : parentOf i < i := parentOf_lt hi1
              rw [ht2other (parentOf i) (by omega) (by omega)] at hpx
              rw [ht2j] at hiy
              injection hiy with hiy
              subst hiy
              exact hA.2 c x ch hi1 hpcj hpx hch
            · by_cases hpij : parentOf i = j
              · -- `i` is the sibling of `c`
                have hji : j < i := by
                  have := parentOf_lt hi1
                  omega
                rw [hpij, ht2j] at hpx
                rw [ht2other i hij hic] at hiy
                injection hpx with hpx
                subst hpx
                have hilen : i < t.length := (List.getElem?_eq_some_iff.mp hiy).1
                exact child_index_min_le hcm ((parentOf_eq_iff hi1).mp hpij)
                  hilen hiy hch
              · rw [ht2other (parentOf i) hpij hpic] at hpx
                rw [ht2other i hij hic] at hiy
                exact hA.1 i x y hi1 hpij hpx hiy
        · -- grandparent condition at the new exception `c`
          intro cc x y _ hpcc hppx hccy
          rw [hpcj, ht2j] at hppx
          injection hppx with hppx
          subst hppx
          have hcc1 : 1 ≤ cc := by
            rcases Nat.eq_zero_or_pos cc with rfl | h
            · exfalso
              have h0 : parentOf 0 = 0 := by simp [parentOf]
              omega
            · exact h
          have hccgt : c < cc := by
            have := parentOf_lt hcc1
            omega
          rw [ht2other cc (by omega) (by omega)] at hccy
          refine hA.1 cc ch y hcc1 ?_ ?_ hccy
          · rw [hpcc]
            omega
          · rw [hpcc]
            exact hch
      · rw [if_neg (show ¬cv > ch from hlt)] at hrun
        injection hrun with hrun
        subst hrun
        intro i x y hi1 hpx hiy
        by_cases hpij : parentOf i = j
        · have hilen : i < t.length := (List.getElem?_eq_some_iff.mp hiy).1
          have hichild := (parentOf_eq_iff hi1).mp hpij
          rw [hpij, hcv] at hpx
          injection hpx with hpx
          subst hpx
          exact le_trans (le_of_not_lt hlt)
            (child_index_min_le hcm hichild hilen hiy hch)
        · exact hA.1 i x y hi1 hpij hpx hiy

/-! ### `extract_min`: totality, returned minimum, permutation, invariant -/

theorem parentOf_ne_zero {i : Nat} (hi : 1 ≤ i) (hne : parentOf i ≠ 0) :
    3 ≤ i := by
  unfold parentOf at hne
  split at hne <;> omega

/-- Setting the last position does not change `dropLast`. -/
theorem dropLast_set_last {l : List α} {a : α} :
    (l.set (l.length - 1) a).dropLast = l.dropLast := by
  apply List.ext_getElem?
  intro n
  rw [List.getElem?_dropLast, List.getElem?_dropLast]
  simp only [List.length_set]
  split
  · rename_i hn
    exact List.getElem?_set_ne (by omega)
  · rfl

/-- A list whose last position is known decomposes as `dropLast ++ [last]`. -/
theorem eq_dropLast_append {l : List α} {a : α} (hne : l ≠ [])
    (hlast : l[l.length - 1]? = some a) : l = l.dropLast ++ [a] := by
  obtain ⟨hh, heq⟩ := List.getElem?_eq_some_iff.mp hlast
  subst heq
  conv_lhs => rw [← List.dropLast_concat_getLast hne]
  rw [List.getLast_eq_getElem]

/-- Overwriting the root of a heap and dropping the last entry leaves an
`AlmostHeapDown` state at the root. -/
theorem almostHeapDown_init {t : List α} (hheap : IsHeap t) (v : α) :
    AlmostHeapDown ((t.set 0 v).dropLast) 0 := by
  constructor
  · intro i x y hi1 hpi0 hpx hiy
    have hi3 : 3 ≤ i := parentOf_ne_zero hi1 hpi0
    have hplt : parentOf i < i := parentOf_lt hi1
    rw [List.getElem?_dropLast] at hpx hiy
    split at hiy
    · rename_i hilen
      split at hpx
      · rename_i hplen
        rw [List.getElem?_set_ne (show (0 : Nat) ≠ parentOf i by omega)] at hpx
        rw [List.getElem?_set_ne (show (0 : Nat) ≠ i by omega)] at hiy
        exact hheap i x y hi1 hpx hiy
      · exact absurd hpx (by simp)
    · exact absurd hiy (by simp)
  · intro cc x y h0 _ _ _
    omega

/-- `extract_min` on a non-empty backing list never panics, returns the root
element, removes exactly one occurrence of it, and preserves the heap
invariant. -/
theorem extract_min_spec {t : List α} (hne : 1 ≤ t.length) :
    ∃ (m : α) (t' : List α), extract_min (MinBinaryHeap.mk t) =
        some (some m, MinBinaryHeap.mk t') ∧
      t[0]? = some m ∧ List.Perm (m :: t') t ∧ (IsHeap t → IsHeap t') := by
  by_cases h2 : t.length < 2
  · have h1 : t.length = 1 := by omega
    obtain ⟨a, rfl⟩ := List.length_eq_one.mp h1
    refine ⟨a, [], ?_, rfl, List.Perm.refl [a], fun _ => isHeap_of_short (by simp)⟩
    simp [extract_min]
  · push_neg at h2
    obtain ⟨root, h0⟩ : ∃ root, t[0]? = some root :=
      ⟨_, List.getElem?_eq_getElem (by omega)⟩
    obtain ⟨last, hlast⟩ : ∃ last, t[t.length - 1]? = some last :=
      ⟨_, List.getElem?_eq_getElem (by omega)⟩
    have hperm1 : List.Perm ((t.set 0 last).set (t.length - 1) root) t :=
      perm_swap_set (by omega) h0 hlast
    have hlen1 : ((t.set 0 last).set (t.length - 1) root).length = t.length := by
      simp
    have hne1 : (t.set 0 last).set (t.length - 1) root ≠ [] := by
      intro hcon
      have hlcon := congrArg List.length hcon
      rw [hlen1] at hlcon
      simp only [List.length_nil] at hlcon
      omega
    have ht1last : ((t.set 0 last).set (t.length - 1) root)[
        ((t.set 0 last).set (t.length - 1) root).length - 1]? = some root := by
      rw [hlen1]
      exact getElem?_ss_snd (by omega)
    have hsplit : (t.set 0 last).set (t.length - 1) root =
        ((t.set 0 last).set (t.length - 1) root).dropLast ++ [root] :=
      eq_dropLast_append hne1 ht1last
    have hpermfinal : List.Perm
        (root :: ((t.set 0 last).set (t.length - 1) root).dropLast) t := by
      have h3 : List.Perm
          (((t.set 0 last).set (t.length - 1) root).dropLast ++ [root]) t := by
        rw [← hsplit]
        exact hperm1
      exact (List.perm_append_singleton root _).symm.trans h3
    have hdroplen : ((t.set 0 last).set (t.length - 1) root).dropLast.length =
        t.length - 1 := by
      rw [List.length_dropLast, hlen1]
    have hdropset : ((t.set 0 last).set (t.length - 1) root).dropLast =
        (t.set 0 last).dropLast := by
      rw [show t.length - 1 = (t.set 0 last).length - 1 by simp]
      exact dropLast_set_last
    by_cases hbig :
        1 < ((t.set 0 last).set (t.length - 1) root).dropLast.length
    · obtain ⟨t3, hrun3, hperm3⟩ :=
        @siftDown_some α _
          (((t.set 0 last).set (t.length - 1) root).dropLast.length)
          (((t.set 0 last).set (t.length - 1) root).dropLast)
          0 (by omega) (by omega)
      refine ⟨root, t3, ?_, h0, (hperm3.cons root).trans hpermfinal, ?_⟩
      · simp only [extract_min]
        rw [if_neg (by omega), if_neg (by omega)]
        simp only [h0, hlast]
        rw [if_pos hbig, hrun3]
        rfl
      · intro hheap
        refine siftDown_heap _ ?_ hrun3
        rw [hdropset]
        exact almostHeapDown_init hheap last
    · refine ⟨root, ((t.set 0 last).set (t.length - 1) root).dropLast, ?_, h0,
        hpermfinal, fun _ => isHeap_of_short (by omega)⟩
      simp only [extract_min]
      rw [if_neg (by omega), if_neg (by omega)]
      simp only [h0, hlast]
      rw [if_neg hbig]

/-- `extract_min` on an empty heap reports the empty case and returns the
state unchanged. -/
theorem extract_min_empty (h : MinBinaryHeap α) (hempty : h.tree = []) :
    extract_min h = some (none, h) := by
  simp [extract_min, hempty]

/-! ### Reachable states and whole-run specifications -/

/-- Every state reachable through the public interface satisfies the min-heap
invariant. -/
theorem reachable_isHeap {h : MinBinaryHeap α} (hr : Reachable h) :
    IsHeap h.tree := by
  induction hr with
  | init => exact isHeap_of_short (by simp [new])
  | @step_insert h0 h' x hr hins ih =>
    obtain ⟨h'', hins', _, hheap⟩ := insert_spec h0 x
    rw [hins] at hins'
    injection hins' with heq
    rw [heq]
    exact hheap ih
  | @step_extract h0 h' r hr hext ih =>
    rcases Nat.eq_zero_or_pos h0.tree.length with hlen | hlen
    · have hempty : h0.tree = [] := List.length_eq_zero.mp hlen
      rw [extract_min_empty h0 hempty] at hext
      injection hext with heq
      injection heq with heqr heqh
      rw [← heqh]
      exact ih
    · obtain ⟨m, t', hrun, _, _, hheap⟩ := extract_min_spec (t := h0.tree) hlen
      rw [show MinBinaryHeap.mk h0.tree = h0 from rfl] at hrun
      rw [hext] at hrun
      injection hrun with heq
      injection heq with heqr heqh
      rw [heqh]
      exact hheap ih

/-- Inserting a list of elements from a heap state never panics, preserves the
invariant, and the final contents are the inputs plus the old contents. -/
theorem insertList_spec : ∀ (xs : List α) (h : MinBinaryHeap α), IsHeap h.tree →
    ∃ h', insertList h xs = some h' ∧ IsHeap h'.tree ∧
      List.Perm h'.tree (xs ++ h.tree) := by
  intro xs
  induction xs with
  | nil =>
    intro h hheap
    exact ⟨h, rfl, hheap, by simp⟩
  | cons x xs ih =>
    intro h hheap
    obtain ⟨h2, hins, hperm, hkeep⟩ := insert_spec h x
    obtain ⟨h', hrest, hheap', hperm'⟩ := ih h2 (hkeep hheap)
    refine ⟨h', ?_, hheap', ?_⟩
    · simp only [insertList, hins]
      exact hrest
    · refine hperm'.trans ?_
      exact (List.Perm.append_left xs hperm).trans List.perm_middle

/-- Extracting as many times as the heap has elements yields its contents in
sorted (non-decreasing) order and drains the heap. -/
theorem extractN_sorted : ∀ (n : Nat) (t : List α), IsHeap t → t.length = n →
    (extractN (MinBinaryHeap.mk t) n).1.Sorted (· ≤ ·) ∧
    List.Perm (extractN (MinBinaryHeap.mk t) n).1 t ∧
    (extractN (MinBinaryHeap.mk t) n).2.tree = [] := by
  intro n
  induction n with
  | zero =>
    intro t _ hlen
    have ht : t = [] := List.length_eq_zero.mp hlen
    subst ht
    exact ⟨List.sorted_nil, List.Perm.refl _, rfl⟩
  | succ n ih =>
    intro t hheap hlen
    obtain ⟨m, t', hrun, h0, hperm, hheap'⟩ := extract_min_spec (t := t) (by omega)
    have hlen' : t'.length = n := by
      have hl := hperm.length_eq
      simp only [List.length_cons] at hl
      omega
    have hN : extractN (MinBinaryHeap.mk t) (n + 1) =
        (m :: (extractN (MinBinaryHeap.mk t') n).1,
          (extractN (MinBinaryHeap.mk t') n).2) := by
      simp only [extractN, hrun]
    obtain ⟨hs, hp, he⟩ := ih t' (hheap' hheap) hlen'
    rw [hN]
    refine ⟨?_, ?_, he⟩
    · rw [List.sorted_cons]
      refine ⟨?_, hs⟩
      intro b hb
      have hbt' : b ∈ t' := hp.mem_iff.mp hb
      have hbt : b ∈ t := hperm.mem_iff.mp (List.mem_cons_of_mem m hbt')
      obtain ⟨ib, hib⟩ := List.getElem?_of_mem hbt
      exact isHeap_root_min hheap ib b hib m h0
    · exact (hp.cons m).trans hperm

/-- A sample state reached by three inserts (`3`, `1`, `2` into a fresh heap),
used to instantiate reachability hypotheses on concrete inputs. -/
theorem reachable_example :
    Reachable (MinBinaryHeap.mk [1, 3, 2] : MinBinaryHeap Nat) := by
  have h1 : Reachable (new : MinBinaryHeap Nat) := Reachable.init
  have h2 : Reachable (MinBinaryHeap.mk [3] : MinBinaryHeap Nat) :=
    h1.step_insert (show insert new 3 = some (MinBinaryHeap.mk [3]) by decide)
  have h3 : Reachable (MinBinaryHeap.mk [1, 3] : MinBinaryHeap Nat) :=
    h2.step_insert
      (show insert (MinBinaryHeap.mk [3]) 1 = some (MinBinaryHeap.mk [1, 3]) by decide)
  exact h3.step_insert
    (show insert (MinBinaryHeap.mk [1, 3]) 2 = some (MinBinaryHeap.mk [1, 3, 2])
      by decide)

/-! ### The claims -/

/-- C1: inserting any finite multiset of elements one at a time into a new
heap and then extracting `N` times yields a non-decreasing sequence that is a
permutation of (hence exactly the sorted order of) the inserted multiset, after
which a further `extract_min` reports "none"; in particular inserting
16, 14, 10, 8, 7, 9, 3, 2, 4, 1 gives `size = 10` and repeated `extract_min`
yields 1, 2, 3, 4, 7, 8, 9, 10, 14, 16 and then none. -/
theorem sorted_output_claim :
    (∀ xs : List α, ∃ hf : MinBinaryHeap α,
      insertList new xs = some hf ∧ size hf = xs.length ∧
      (extractN hf xs.length).1.Sorted (· ≤ ·) ∧
      List.Perm (extractN hf xs.length).1 xs ∧
      extract_min (extractN hf xs.length).2 =
        some (none, (extractN hf xs.length).2)) ∧
    (∃ hf : MinBinaryHeap Nat,
      insertList new [16, 14, 10, 8, 7, 9, 3, 2, 4, 1] = some hf ∧
      size hf = 10 ∧
      (extractN hf 10).1 = [1, 2, 3, 4, 7, 8, 9, 10, 14, 16] ∧
      extract_min (extractN hf 10).2 = some (none, (extractN hf 10).2)) := by
  constructor
  · intro xs
    obtain ⟨hf, hins, hheap, hperm⟩ :=
      insertList_spec xs new (isHeap_of_short (by simp [new]))
    have hlenf : hf.tree.length = xs.length := by
      have hl := hperm.length_eq
      simp only [new, List.append_nil, List.length_append, List.length_nil] at hl
      omega
    obtain ⟨hs, hp, he⟩ := extractN_sorted xs.length hf.tree hheap hlenf
    refine ⟨hf, hins, hlenf, hs, ?_, ?_⟩
    · refine hp.trans ?_
      have : List.Perm hf.tree (xs ++ (new : MinBinaryHeap α).tree) := hperm
      simpa [new] using this
    · exact extract_min_empty _ he
  · refine ⟨MinBinaryHeap.mk [1, 2, 7, 4, 3, 14, 9, 16, 8, 10], ?_, ?_, ?_, ?_⟩ <;>
      decide

/-- C2: the min-heap property (`element[parentOf i] ≤ element[i]` for every
in-range `i > 0`) holds in every state reachable from `new` by `insert` and
`extract_min` operations. -/
theorem heap_invariant_claim {h : MinBinaryHeap α} (hr : Reachable h) :
    IsHeap h.tree :=
  reachable_isHeap hr

/-- Witness for C2 at a concrete reachable state. -/
theorem heap_invariant_claim_witness :
    IsHeap ([1, 3, 2] : List Nat) :=
  heap_invariant_claim reachable_example

/-- C3: on every reachable non-empty heap, `extract_min` returns a value that
is at most every element remaining stored after the call. -/
theorem min_correct_claim {h : MinBinaryHeap α} (hr : Reachable h)
    (hne : 0 < size h) :
    ∃ (m : α) (h' : MinBinaryHeap α), extract_min h = some (some m, h') ∧
      ∀ y ∈ h'.tree, m ≤ y := by
  have hheap := reachable_isHeap hr
  obtain ⟨m, t', hrun, h0, hperm, _⟩ := extract_min_spec (t := h.tree) hne
  rw [show MinBinaryHeap.mk h.tree = h from rfl] at hrun
  refine ⟨m, MinBinaryHeap.mk t', hrun, ?_⟩
  intro y hy
  have hyt : y ∈ h.tree := hperm.mem_iff.mp (List.mem_cons_of_mem m hy)
  obtain ⟨iy, hiy⟩ := List.getElem?_of_mem hyt
  exact isHeap_root_min hheap iy y hiy m h0

/-- Witness for C3 at a concrete reachable state. -/
theorem min_correct_claim_witness :
    ∃ (m : Nat) (h' : MinBinaryHeap Nat),
      extract_min (MinBinaryHeap.mk [1, 3, 2]) = some (some m, h') ∧
      ∀ y ∈ h'.tree, m ≤ y :=
  min_correct_claim reachable_example (by decide)

/-- C4: `extract_min` never panics on any heap; its result is "none" exactly
when the heap is empty (`size = 0`), so it returns some element on every
non-empty heap; and a heap created by `new` has `size = 0`. -/
theorem empty_behavior_claim :
    (∀ h : MinBinaryHeap α, ∃ (r : Option α) (h' : MinBinaryHeap α),
      extract_min h = some (r, h') ∧ (r = none ↔ size h = 0)) ∧
    size (new : MinBinaryHeap α) = 0 := by
  refine ⟨?_, rfl⟩
  intro h
  rcases Nat.eq_zero_or_pos h.tree.length with hlen | hlen
  · refine ⟨none, h, extract_min_empty h (List.length_eq_zero.mp hlen), ?_⟩
    simp [size, hlen]
  · obtain ⟨m, t', hrun, _, _, _⟩ := extract_min_spec (t := h.tree) hlen
    rw [show MinBinaryHeap.mk h.tree = h from rfl] at hrun
    refine ⟨some m, MinBinaryHeap.mk t', hrun, ?_⟩
    simp only [size]
    constructor
    · intro hcon
      exact absurd hcon (by simp)
    · intro hcon
      omega

/-- C5: size accounting: `size new = 0`; a (non-panicking) `insert` increases
`size` by exactly one; an `extract_min` that returns an element decreases
`size` by exactly one.  (`size` itself is `&self`-pure in the source — it is
modelled as a function that only reads the state, so it cannot change it.) -/
theorem size_accounting_claim :
    size (new : MinBinaryHeap α) = 0 ∧
    (∀ (h h' : MinBinaryHeap α) (x : α), insert h x = some h' →
      size h' = size h + 1) ∧
    (∀ (h h' : MinBinaryHeap α) (x : α), extract_min h = some (some x, h') →
      size h' + 1 = size h) := by
  refine ⟨rfl, ?_, ?_⟩
  · intro h h' x hins
    obtain ⟨h'', hins', hperm, _⟩ := insert_spec h x
    rw [hins] at hins'
    injection hins' with heq
    subst heq
    have hl := hperm.length_eq
    simp only [List.length_cons] at hl
    simp only [size]
    omega
  · intro h h' x hext
    rcases Nat.eq_zero_or_pos h.tree.length with hlen | hlen
    · rw [extract_min_empty h (List.length_eq_zero.mp hlen)] at hext
      injection hext with heq
      injection heq with heqr heqh
      exact absurd heqr (by simp)
    · obtain ⟨m, t', hrun, _, hperm, _⟩ := extract_min_spec (t := h.tree) hlen
      rw [show MinBinaryHeap.mk h.tree = h from rfl] at hrun
      rw [hext] at hrun
      injection hrun with heq
      injection heq with heqr heqh
      have hl := hperm.length_eq
      simp only [List.length_cons] at hl
      rw [heqh]
      simp only [size]
      omega

/-- Witness for C5 on concrete one-step transitions. -/
theorem size_accounting_claim_witness :
    size (new : MinBinaryHeap Nat) = 0 ∧
    size (MinBinaryHeap.mk [1, 3] : MinBinaryHeap Nat) =
      size (MinBinaryHeap.mk [3] : MinBinaryHeap Nat) + 1 ∧
    size (MinBinaryHeap.mk [3] : MinBinaryHeap Nat) + 1 =
      size (MinBinaryHeap.mk [1, 3] : MinBinaryHeap Nat) :=
  ⟨size_accounting_claim.1,
    size_accounting_claim.2.1 (MinBinaryHeap.mk [3]) (MinBinaryHeap.mk [1, 3]) 1
      (by decide),
    size_accounting_claim.2.2 (MinBinaryHeap.mk [1, 3]) (MinBinaryHeap.mk [3]) 1
      (by decide)⟩

/-- C6: `parent_index h i` signals a fatal contract violation (modelled as
`none`) exactly when `i < 1` or `i ≥ size h`; on `1 ≤ i < size h` it returns
`(i-1)/2` for odd `i` and `(i-2)/2` for even `i`; in particular, on any
10-element heap, parent(9)=4, parent(8)=3, parent(7)=3, parent(6)=2,
parent(5)=2, parent(4)=1, parent(3)=1, parent(2)=0, parent(1)=0. -/
theorem parent_index_claim :
    (∀ (h : MinBinaryHeap α) (i : Nat),
      (parent_index h i = none ↔ i < 1 ∨ i ≥ size h) ∧
      (1 ≤ i → i < size h →
        parent_index h i =
          some (if i % 2 = 0 then (i - 2) / 2 else (i - 1) / 2))) ∧
    (∀ h : MinBinaryHeap α, size h = 10 →
      parent_index h 9 = some 4 ∧ parent_index h 8 = some 3 ∧
      parent_index h 7 = some 3 ∧ parent_index h 6 = some 2 ∧
      parent_index h 5 = some 2 ∧ parent_index h 4 = some 1 ∧
      parent_index h 3 = some 1 ∧ parent_index h 2 = some 0 ∧
      parent_index h 1 = some 0) := by
  have hgen : ∀ (h : MinBinaryHeap α) (i : Nat),
      (parent_index h i = none ↔ i < 1 ∨ i ≥ size h) ∧
      (1 ≤ i → i < size h →
        parent_index h i =
          some (if i % 2 = 0 then (i - 2) / 2 else (i - 1) / 2)) := by
    intro h i
    constructor
    · exact parent_index_none_iff
    · intro h1 h2
      rw [parent_index_eq h1 h2]
      unfold parentOf
      rfl
  refine ⟨hgen, ?_⟩
  intro h hsz
  have key : ∀ i1 : Nat, 1 ≤ i1 → i1 < size h →
      parent_index h i1 = some (parentOf i1) :=
    fun i1 a b => parent_index_eq a b
  refine ⟨?_, ?_, ?_, ?_, ?_, ?_, ?_, ?_, ?_⟩
  · rw [key 9 (by omega) (by omega)] <;> decide
  · rw [key 8 (by omega) (by omega)] <;> decide
  · rw [key 7 (by omega) (by omega)] <;> decide
  · rw [key 6 (by omega) (by omega)] <;> decide
  · rw [key 5 (by omega) (by omega)] <;> decide
  · rw [key 4 (by omega) (by omega)] <;> decide
  · rw [key 3 (by omega) (by omega)] <;> decide
  · rw [key 2 (by omega) (by omega)] <;> decide
  · rw [key 1 (by omega) (by omega)] <;> decide

/-- Witness for C6 on the 10-element heap built by the crate's own test. -/
theorem parent_index_claim_witness :
    parent_index (MinBinaryHeap.mk [1, 2, 7, 4, 3, 14, 9, 16, 8, 10] :
        MinBinaryHeap Nat) 9 = some 4 ∧
    parent_index (MinBinaryHeap.mk [1, 2, 7, 4, 3, 14, 9, 16, 8, 10] :
        MinBinaryHeap Nat) 2 = some 0 ∧
    parent_index (MinBinaryHeap.mk [1, 2, 7, 4, 3, 14, 9, 16, 8, 10] :
        MinBinaryHeap Nat) 0 = none := by
  have hp := parent_index_claim.2
    (MinBinaryHeap.mk [1, 2, 7, 4, 3, 14, 9, 16, 8, 10] : MinBinaryHeap Nat)
    (by decide)
  refine ⟨hp.1, hp.2.2.2.2.2.2.2.1, ?_⟩
  exact (parent_index_claim.1
    (MinBinaryHeap.mk [1, 2, 7, 4, 3, 14, 9, 16, 8, 10] : MinBinaryHeap Nat)
    0).1.mpr (by decide)

/-- C7: `child_index_min h i` never panics: it returns `none` (no children)
exactly when `2i+1 ≥ size h`; the left child index `2i+1` when only the left
child exists; otherwise the index of the child with the smaller element, the
right child `2i+2` on ties. -/
theorem child_index_claim :
    ∀ (h : MinBinaryHeap α) (i : Nat),
      (child_index_min h i = none ↔ 2 * i + 1 ≥ size h) ∧
      (2 * i + 1 < size h → size h ≤ 2 * i + 2 →
        child_index_min h i = some (2 * i + 1)) ∧
      (∀ x y, 2 * i + 2 < size h → h.tree[2 * i + 1]? = some x →
        h.tree[2 * i + 2]? = some y →
        child_index_min h i = some (if x < y then 2 * i + 1 else 2 * i + 2)) := by
  intro h i
  refine ⟨?_, ?_, ?_⟩
  · rw [child_index_min_none_iff]
    exact ge_iff_le.symm
  · intro h1 h2
    have hsz : size h = h.tree.length := rfl
    have hl : 2 * i + 1 < h.tree.length := by omega
    have hr2 : ¬2 * i + 2 < h.tree.length := by omega
    unfold child_index_min
    simp [hl, hr2]
  · intro x y h2 hx hy
    have hsz : size h = h.tree.length := rfl
    have hl : 2 * i + 1 < h.tree.length := by omega
    have hr2 : 2 * i + 2 < h.tree.length := by omega
    rw [List.getElem?_eq_getElem hl] at hx
    rw [List.getElem?_eq_getElem hr2] at hy
    injection hx with hx
    injection hy with hy
    subst hx
    subst hy
    unfold child_index_min
    simp only [hl, hr2, dif_pos]
    simp only [List.get_eq_getElem]
    split <;> rename_i hcmp <;> simp [hcmp]

/-- Witness for C7 on the 10-element heap built by the crate's own test. -/
theorem child_index_claim_witness :
    child_index_min (MinBinaryHeap.mk [1, 2, 7, 4, 3, 14, 9, 16, 8, 10] :
        MinBinaryHeap Nat) 2 =
      some (if (14 : Nat) < 9 then 2 * 2 + 1 else 2 * 2 + 2) ∧
    child_index_min (MinBinaryHeap.mk [1, 2, 7, 4, 3, 14, 9, 16, 8, 10] :
        MinBinaryHeap Nat) 4 = some (2 * 4 + 1) ∧
    child_index_min (MinBinaryHeap.mk [1, 2, 7, 4, 3, 14, 9, 16, 8, 10] :
        MinBinaryHeap Nat) 5 = none := by
  refine ⟨?_, ?_, ?_⟩
  · exact (child_index_claim
      (MinBinaryHeap.mk [1, 2, 7, 4, 3, 14, 9, 16, 8, 10]) 2).2.2 14 9
      (by decide) (by decide) (by decide)
  · exact (child_index_claim
      (MinBinaryHeap.mk [1, 2, 7, 4, 3, 14, 9, 16, 8, 10]) 4).2.1
      (by decide) (by decide)
  · exact (child_index_claim
      (MinBinaryHeap.mk [1, 2, 7, 4, 3, 14, 9, 16, 8, 10]) 5).1.mpr (by decide)

/-- C8: `insert` has no failure conditions on any reachable heap: it always
completes without panicking; since every panic of the internal `parent_index`
helper would surface as a `none` result of `insert`, this also shows that
every `parent_index` call made by the sift-up loop is in range. -/
theorem insert_no_failure_claim {h : MinBinaryHeap α} (hr : Reachable h)
    (x : α) : ∃ h', insert h x = some h' := by
  obtain ⟨h', he, _, _⟩ := insert_spec h x
  exact ⟨h', he⟩

/-- Witness for C8 at a concrete reachable state. -/
theorem insert_no_failure_claim_witness :
    ∃ h', insert (MinBinaryHeap.mk [1, 3, 2] : MinBinaryHeap Nat) 0 = some h' :=
  insert_no_failure_claim reachable_example 0

/-- C9: multiset preservation: a (non-panicking) `insert` leaves the contents
equal to the prior multiset plus the new element, and an `extract_min` that
returns an element returns the element stored at index 0 and leaves the prior
multiset minus one occurrence of it. -/
theorem multiset_preservation_claim :
    (∀ (h h' : MinBinaryHeap α) (x : α), insert h x = some h' →
      List.Perm h'.tree (x :: h.tree)) ∧
    (∀ (h h' : MinBinaryHeap α) (m : α), extract_min h = some (some m, h') →
      h.tree[0]? = some m ∧ List.Perm h.tree (m :: h'.tree)) := by
  constructor
  · intro h h' x hins
    obtain ⟨h'', hins', hperm, _⟩ := insert_spec h x
    rw [hins] at hins'
    injection hins' with heq
    subst heq
    exact hperm
  · intro h h' m hext
    rcases Nat.eq_zero_or_pos h.tree.length with hlen | hlen
    · rw [extract_min_empty h (List.length_eq_zero.mp hlen)] at hext
      injection hext with heq
      injection heq with heqr heqh
      exact absurd heqr (by simp)
    · obtain ⟨m', t', hrun, h0, hperm, _⟩ := extract_min_spec (t := h.tree) hlen
      rw [show MinBinaryHeap.mk h.tree = h from rfl] at hrun
      rw [hext] at hrun
      injection hrun with heq
      injection heq with heqr heqh
      injection heqr with heqr
      subst heqr
      rw [heqh]
      exact ⟨h0, hperm.symm⟩

/-- Witness for C9 on a concrete insert and a concrete extract. -/
theorem multiset_preservation_claim_witness :
    List.Perm (MinBinaryHeap.mk [1, 3] : MinBinaryHeap Nat).tree
      (1 :: (MinBinaryHeap.mk [3] : MinBinaryHeap Nat).tree) ∧
    ((MinBinaryHeap.mk [1, 3] : MinBinaryHeap Nat).tree[0]? = some 1 ∧
      List.Perm (MinBinaryHeap.mk [1, 3] : MinBinaryHeap Nat).tree
        (1 :: (MinBinaryHeap.mk [3] : MinBinaryHeap Nat).tree)) :=
  ⟨multiset_preservation_claim.1 (MinBinaryHeap.mk [3]) (MinBinaryHeap.mk [1, 3])
      1 (by decide),
    multiset_preservation_claim.2 (MinBinaryHeap.mk [1, 3]) (MinBinaryHeap.mk [3])
      1 (by decide)⟩

/-- C10: `extract_min` on an empty heap returns "none" and leaves the state
completely unchanged. -/
theorem empty_unchanged_claim {h : MinBinaryHeap α} (hsz : size h = 0) :
    extract_min h = some (none, h) :=
  extract_min_empty h (List.length_eq_zero.mp hsz)

/-- Witness for C10 on the freshly created heap. -/
theorem empty_unchanged_claim_witness :
    extract_min (new : MinBinaryHeap Nat) = some (none, new) :=
  empty_unchanged_claim (by decide)

end MinHeap
